import Mathlib

/-
Verification of the batch operation engine of gh-security-config.

The development embeds, in Lean:
  * the outcome/error taxonomy (internal/types: ProcessingResult,
    ConfigurationExistsError, DependabotUnavailableError),
  * the sequential runner (processors.SequentialProcessor.Process),
  * the concurrent worker-pool runner (processors.ConcurrentProcessor.Process
    and .worker), modelled as a small-step transition system over an explicit
    state, with nondeterministic interleaving of workers, consumer and the
    post-abort drain; Go's select over a ready queue-receive and a closed stop
    channel chooses nondeterministically, which the step relation reflects by
    keeping the take-from-queue step enabled after the stop signal,
  * the flag validators (internal/utils/validation.go).

Ghost instrumentation (fields that record what happened without influencing
behaviour): the list of targets whose processing began, the list of results the
consumer actually consumed, the number of times the stop channel was closed,
and, for the sequential runner, the trace of sleep/invoke events.
-/

namespace SecurityConfig

/-- The typed errors of internal/types/errors.go, plus a catch-all for any
other Go error value; errors.As against a concrete pointer type corresponds to
matching the constructor. -/
inductive GoError where
  | configurationExists (configName orgName : String)
  | dependabotUnavailable (feature orgName : String)
  | other (msg : String)
  deriving DecidableEq

/-- types.ProcessingResult: organization name, success/skipped flags and an
optional error (`nil` becomes `none`). -/
structure ProcessingResult where
  organization : String
  success : Bool
  skipped : Bool
  error : Option GoError
  deriving DecidableEq

/-- The (successCount, skippedCount, errorCount) triple both runners return. -/
structure Counts where
  successCount : Nat
  skippedCount : Nat
  errorCount : Nat
  deriving DecidableEq

/-- Total of the three counters. -/
def Counts.sum (c : Counts) : Nat := c.successCount + c.skippedCount + c.errorCount

/-- A result that carries at least one of the three outcome indications: the
Go struct can also express the all-false, nil-error value, which neither
runner counts; a Target Operation in the spec's sense (returning an Outcome)
never produces that value. -/
def isProperResult (r : ProcessingResult) : Bool :=
  r.success || r.skipped || r.error.isSome

/-- A result that drives both runners into the fatal (Dependabot-unavailable)
abort branch: not success, not skipped, error is a DependabotUnavailableError. -/
def isFatalResult (r : ProcessingResult) : Bool :=
  !r.success && !r.skipped &&
    (match r.error with
     | some (GoError.dependabotUnavailable _ _) => true
     | _ => false)

/-! ## Flag validators (internal/utils/validation.go) -/

/-- utils.ValidateConcurrency: `none` models a nil error. -/
def ValidateConcurrency (concurrency : Int) : Option String :=
  if concurrency < 1 ∨ concurrency > 20 then
    some ("concurrency must be between 1 and 20, got " ++ toString concurrency)
  else
    none

/-- utils.ValidateDelay: `none` models a nil error.  Note the lower bound the
code actually checks is `delay < 0`. -/
def ValidateDelay (delay : Int) : Option String :=
  if delay < 0 ∨ delay > 600 then
    some ("delay must be between 1 and 600 seconds, got " ++ toString delay)
  else
    none

/-- utils.ValidateConcurrencyAndDelay. -/
def ValidateConcurrencyAndDelay (concurrency delay : Int) : Option String :=
  if concurrency > 1 ∧ delay > 0 then
    some "--concurrency and --delay flags are mutually exclusive"
  else
    none

/-! ## Sequential runner (SequentialProcessor.Process)

The runner is a pure fold over the target list.  Besides the counters it
returns the trace of externally observable events: the timed sleeps and the
ProcessOrganization invocations, in order. -/

/-- Observable events of a sequential run. -/
inductive SeqEvent where
  | sleep (seconds : Nat)
  | invoke (org : String)
  deriving DecidableEq

/-- Targets invoked during a sequential run, in order, read off the trace. -/
def invokedOf (events : List SeqEvent) : List String :=
  events.filterMap fun e =>
    match e with
    | SeqEvent.sleep _ => none
    | SeqEvent.invoke org => some org

/-- The loop body of SequentialProcessor.Process (source lines 50-100),
recursing over the remaining targets with the running index `i` and counters.
The fatal (DependabotUnavailableError) branch adds `totalOrgs - (i+1)` to
skippedCount and returns without recursing. -/
def seqLoop (proc : String → ProcessingResult) (delay totalOrgs : Nat) :
    List String → Nat → Counts → Counts × List SeqEvent
  | [], _, counts => (counts, [])
  | org :: rest, i, counts =>
    let pre : List SeqEvent :=
      (if 0 < i ∧ 0 < delay then [SeqEvent.sleep delay] else []) ++ [SeqEvent.invoke org]
    let result := proc org
    let go : Counts → Counts × List SeqEvent := fun c =>
      let r := seqLoop proc delay totalOrgs rest (i + 1) c
      (r.1, pre ++ r.2)
    if result.success then
      go { counts with successCount := counts.successCount + 1 }
    else if result.skipped then
      go { counts with skippedCount := counts.skippedCount + 1 }
    else
      match result.error with
      | some err =>
        let counts := { counts with errorCount := counts.errorCount + 1 }
        match err with
        | GoError.configurationExists _ _ =>
          go { counts with skippedCount := counts.skippedCount + 1,
                           errorCount := counts.errorCount - 1 }
        | GoError.dependabotUnavailable _ _ =>
          let remainingOrgs := totalOrgs - (i + 1)
          ({ counts with skippedCount := counts.skippedCount + remainingOrgs }, pre)
        | GoError.other _ => go counts
      | none => go counts

/-- SequentialProcessor.Process: early (0,0,0) return on an empty list, then
the loop from index 0 with zeroed counters. -/
def seqProcess (proc : String → ProcessingResult) (delay : Nat)
    (orgs : List String) : Counts × List SeqEvent :=
  if orgs.length = 0 then (⟨0, 0, 0⟩, [])
  else seqLoop proc delay orgs.length orgs 0 ⟨0, 0, 0⟩

/-! ## Concurrent runner (ConcurrentProcessor.Process / .worker)

The runner is modelled as a transition system.  The state carries the work
queue (orgChan: buffered with every target, then closed), the worker pool
(symmetric, so only the idle/done counts and the multiset of targets currently
being processed matter), the result channel buffer, the shared counters with
the stop flag, and the consumer's loop position. -/

/-- One iteration of the consumer loop body (source lines 177-232 of the
concurrent processor): the counter updates, the guarded one-shot close of the
stop channel, the remaining-count skip bump, and whether the loop `break`s.
`closeCount` instruments how many times `close(cp.stopSignal)` executed. -/
structure ConsumeOut where
  counts : Counts
  resultsProcessed : Nat
  stopped : Bool
  closeCount : Nat
  brokeOut : Bool
  deriving DecidableEq

/-- Literal translation of the consumer loop body. -/
def consumeOne (totalOrgs : Nat) (counts : Counts) (resultsProcessed : Nat)
    (stopped : Bool) (closeCount : Nat) (result : ProcessingResult) : ConsumeOut :=
  let resultsProcessed := resultsProcessed + 1
  if result.success then
    ⟨{ counts with successCount := counts.successCount + 1 },
      resultsProcessed, stopped, closeCount, false⟩
  else if result.skipped then
    ⟨{ counts with skippedCount := counts.skippedCount + 1 },
      resultsProcessed, stopped, closeCount, false⟩
  else
    match result.error with
    | some err =>
      let counts := { counts with errorCount := counts.errorCount + 1 }
      match err with
      | GoError.configurationExists _ _ =>
        ⟨{ counts with skippedCount := counts.skippedCount + 1,
                       errorCount := counts.errorCount - 1 },
          resultsProcessed, stopped, closeCount, false⟩
      | GoError.dependabotUnavailable _ _ =>
        let sc : Bool × Nat := if stopped then (stopped, closeCount) else (true, closeCount + 1)
        let remainingOrgs := totalOrgs - resultsProcessed
        ⟨{ counts with skippedCount := counts.skippedCount + remainingOrgs },
          resultsProcessed, sc.1, sc.2, true⟩
      | GoError.other _ =>
        ⟨counts, resultsProcessed, stopped, closeCount, false⟩
    | none => ⟨counts, resultsProcessed, stopped, closeCount, false⟩

/-- State of one ConcurrentProcessor.Process invocation.  `invoked` and
`consumed` are ghost histories: targets whose processing began, and results
the consumer consumed (in order). -/
structure ConcState where
  queue : List String
  idleWorkers : Nat
  busyOrgs : List String
  doneWorkers : Nat
  resultBuf : List ProcessingResult
  stopped : Bool
  counts : Counts
  resultsProcessed : Nat
  consumerDone : Bool
  closeCount : Nat
  invoked : List String
  consumed : List ProcessingResult

/-- Initial state: queue pre-loaded with every target and closed, `concurrency`
workers blocked in their select, everything else zeroed. -/
def initState (orgs : List String) (concurrency : Nat) : ConcState :=
  { queue := orgs
    idleWorkers := concurrency
    busyOrgs := []
    doneWorkers := 0
    resultBuf := []
    stopped := false
    counts := ⟨0, 0, 0⟩
    resultsProcessed := 0
    consumerDone := false
    closeCount := 0
    invoked := []
    consumed := [] }

/-- Interleaved small steps of the workers, the consumer and the post-abort
drain goroutine.  `workerTake` stays enabled when `stopped` is true: the
worker's select has both the (closed, still non-empty) orgChan receive and the
closed stopSignal receive ready, and Go's select picks among ready cases
nondeterministically. -/
inductive ConcStep (proc : String → ProcessingResult) (totalOrgs : Nat) :
    ConcState → ConcState → Prop
  | workerTake (s : ConcState) (org : String) (rest : List String) (n : Nat) :
      s.queue = org :: rest →
      s.idleWorkers = n + 1 →
      ConcStep proc totalOrgs s
        { s with queue := rest, idleWorkers := n, busyOrgs := org :: s.busyOrgs,
                 invoked := s.invoked ++ [org] }
  | workerFinish (s : ConcState) (pre post : List String) (org : String) :
      s.busyOrgs = pre ++ org :: post →
      ConcStep proc totalOrgs s
        { s with busyOrgs := pre ++ post, idleWorkers := s.idleWorkers + 1,
                 resultBuf := s.resultBuf ++ [proc org] }
  | workerExitStop (s : ConcState) (n : Nat) :
      s.idleWorkers = n + 1 →
      s.stopped = true →
      ConcStep proc totalOrgs s
        { s with idleWorkers := n, doneWorkers := s.doneWorkers + 1 }
  | workerExitEmpty (s : ConcState) (n : Nat) :
      s.idleWorkers = n + 1 →
      s.queue = [] →
      ConcStep proc totalOrgs s
        { s with idleWorkers := n, doneWorkers := s.doneWorkers + 1 }
  | consume (s : ConcState) (r : ProcessingResult) (rest : List ProcessingResult) :
      s.consumerDone = false →
      s.resultBuf = r :: rest →
      ConcStep proc totalOrgs s
        { s with resultBuf := rest
                 counts := (consumeOne totalOrgs s.counts s.resultsProcessed
                              s.stopped s.closeCount r).counts
                 resultsProcessed := (consumeOne totalOrgs s.counts s.resultsProcessed
                              s.stopped s.closeCount r).resultsProcessed
                 stopped := (consumeOne totalOrgs s.counts s.resultsProcessed
                              s.stopped s.closeCount r).stopped
                 closeCount := (consumeOne totalOrgs s.counts s.resultsProcessed
                              s.stopped s.closeCount r).closeCount
                 consumerDone := (consumeOne totalOrgs s.counts s.resultsProcessed
                              s.stopped s.closeCount r).brokeOut
                 consumed := s.consumed ++ [r] }
  | drain (s : ConcState) (r : ProcessingResult) (rest : List ProcessingResult) :
      s.consumerDone = true →
      s.resultBuf = r :: rest →
      ConcStep proc totalOrgs s { s with resultBuf := rest }

/-- Reachability of a state from the initial one by interleaved steps. -/
def ConcReachable (proc : String → ProcessingResult) (totalOrgs : Nat)
    (s₀ s : ConcState) : Prop :=
  Relation.ReflTransGen (ConcStep proc totalOrgs) s₀ s

/-- A run is over: every worker has exited its loop and the result channel is
closed and fully drained.  The counters the Go function returns never change
from the moment the consumer leaves its loop, so they can be read off here. -/
def ConcState.final (s : ConcState) : Prop :=
  s.idleWorkers = 0 ∧ s.busyOrgs = [] ∧ s.resultBuf = []

/-- The observable result of ConcurrentProcessor.Process: either the early
return on an empty target list (source lines 143-146), or the counters and
ghost invocation history of a completed run of the transition system. -/
inductive ConcResult (proc : String → ProcessingResult) (orgs : List String)
    (concurrency : Nat) : Counts × List String → Prop
  | empty :
      orgs.length = 0 →
      ConcResult proc orgs concurrency (⟨0, 0, 0⟩, [])
  | run (s : ConcState) :
      orgs.length ≠ 0 →
      ConcReachable proc orgs.length (initState orgs concurrency) s →
      s.final →
      ConcResult proc orgs concurrency (s.counts, s.invoked)

/-! ## Basic facts about one consumer iteration -/

lemma consumeOne_resultsProcessed (T : Nat) (c : Counts) (rp : Nat) (st : Bool)
    (cc : Nat) (r : ProcessingResult) :
    (consumeOne T c rp st cc r).resultsProcessed = rp + 1 := by
  rcases r with ⟨o, su, sk, er⟩
  cases su <;> cases sk <;>
    rcases er with _ | (⟨cn, o2⟩ | ⟨fe, o2⟩ | m) <;>
      simp [consumeOne]

lemma consumeOne_nonfatal (T : Nat) (c : Counts) (rp : Nat) (st : Bool)
    (cc : Nat) (r : ProcessingResult)
    (hp : isProperResult r = true) (hnf : isFatalResult r = false) :
    (consumeOne T c rp st cc r).counts.sum = c.sum + 1 ∧
    (consumeOne T c rp st cc r).stopped = st ∧
    (consumeOne T c rp st cc r).closeCount = cc ∧
    (consumeOne T c rp st cc r).brokeOut = false := by
  rcases r with ⟨o, su, sk, er⟩
  cases su <;> cases sk <;>
    rcases er with _ | (⟨cn, o2⟩ | ⟨fe, o2⟩ | m) <;>
      simp_all [consumeOne, isProperResult, isFatalResult, Counts.sum] <;> omega

lemma consumeOne_fatal (T : Nat) (c : Counts) (rp : Nat)
    (cc : Nat) (r : ProcessingResult) (hf : isFatalResult r = true) :
    consumeOne T c rp false cc r =
      ⟨⟨c.successCount, c.skippedCount + (T - (rp + 1)), c.errorCount + 1⟩,
        rp + 1, true, cc + 1, true⟩ := by
  rcases r with ⟨o, su, sk, er⟩
  cases su <;> cases sk <;>
    rcases er with _ | (⟨cn, o2⟩ | ⟨fe, o2⟩ | m) <;>
      simp_all [consumeOne, isFatalResult]

/-! ## Invariants of the concurrent runner -/

/-- Structural invariants that hold for any processor function: worker
accounting, the stop flag mirroring the consumer's break, exited workers only
after the queue is exhausted or the stop signal is up, and the one-shot close
counter tracking the stop flag. -/
structure ConcInvCore (concurrency : Nat) (s : ConcState) : Prop where
  workerSum : s.idleWorkers + s.busyOrgs.length + s.doneWorkers = concurrency
  stopEqDone : s.stopped = s.consumerDone
  doneQueue : s.stopped = false → 0 < s.doneWorkers → s.queue = []
  closeOnce : s.closeCount = if s.stopped then 1 else 0

/-- Counting invariants, relying on every produced result being a proper
Outcome: before a fatal abort each consumed result has bumped the counter sum
by exactly one and every target sits in exactly one place; from the abort on,
the counter sum is pinned at the total target count. -/
structure ConcInvCount (totalOrgs : Nat) (s : ConcState) : Prop where
  sumEq : s.stopped = false → s.counts.sum = s.resultsProcessed
  conserve : s.stopped = false →
    s.resultsProcessed + s.resultBuf.length + s.busyOrgs.length + s.queue.length = totalOrgs
  doneSum : s.consumerDone = true → s.counts.sum = totalOrgs
  bufProper : ∀ r ∈ s.resultBuf, isProperResult r = true

lemma concInvCore_init (orgs : List String) (concurrency : Nat) :
    ConcInvCore concurrency (initState orgs concurrency) := by
  constructor <;> simp [initState]

lemma concInvCount_init (orgs : List String) (concurrency : Nat) :
    ConcInvCount orgs.length (initState orgs concurrency) := by
  constructor <;> simp [initState, Counts.sum]

lemma consumeOne_nonfatal_state (T : Nat) (c : Counts) (rp : Nat) (st : Bool)
    (cc : Nat) (r : ProcessingResult) (hnf : isFatalResult r = false) :
    (consumeOne T c rp st cc r).stopped = st ∧
    (consumeOne T c rp st cc r).closeCount = cc ∧
    (consumeOne T c rp st cc r).brokeOut = false := by
  rcases r with ⟨o, su, sk, er⟩
  cases su <;> cases sk <;>
    rcases er with _ | (⟨cn, o2⟩ | ⟨fe, o2⟩ | m) <;>
      simp_all [consumeOne, isFatalResult]

lemma concInvCore_step {proc : String → ProcessingResult} {T concurrency : Nat}
    {s s' : ConcState} (inv : ConcInvCore concurrency s)
    (hstep : ConcStep proc T s s') : ConcInvCore concurrency s' := by
  cases hstep with
  | workerTake org rest n hq hn =>
    refine ⟨?_, inv.stopEqDone, ?_, inv.closeOnce⟩
    · have := inv.workerSum
      dsimp only
      simp only [List.length_cons]
      omega
    · dsimp only
      intro hs hd
      have := inv.doneQueue hs hd
      rw [hq] at this
      exact absurd this (List.cons_ne_nil _ _)
  | workerFinish pre post org hb =>
    refine ⟨?_, inv.stopEqDone, inv.doneQueue, inv.closeOnce⟩
    have := inv.workerSum
    rw [hb] at this
    dsimp only
    simp only [List.length_append, List.length_cons] at this ⊢
    omega
  | workerExitStop n hn hs =>
    refine ⟨?_, inv.stopEqDone, ?_, inv.closeOnce⟩
    · have := inv.workerSum
      dsimp only
      omega
    · dsimp only
      intro hs' _
      simp [hs] at hs'
  | workerExitEmpty n hn hq =>
    refine ⟨?_, inv.stopEqDone, fun _ _ => hq, inv.closeOnce⟩
    have := inv.workerSum
    dsimp only
    omega
  | consume r rest hdone hb =>
    have hstopF : s.stopped = false := by rw [inv.stopEqDone, hdone]
    have hccF : s.closeCount = 0 := by
      have := inv.closeOnce
      rwa [hstopF, if_neg (by simp)] at this
    by_cases hf : isFatalResult r = true
    · have hco := consumeOne_fatal T s.counts s.resultsProcessed s.closeCount r hf
      refine ⟨inv.workerSum, ?_, ?_, ?_⟩
      · dsimp only
        rw [hstopF, hco]
      · dsimp only
        rw [hstopF, hco]
        intro hs' _
        exact absurd hs' (by simp)
      · dsimp only
        rw [hstopF, hco, hccF]
        simp
    · have hnf : isFatalResult r = false := by simpa using hf
      obtain ⟨hst', hcc', hbk'⟩ :=
        consumeOne_nonfatal_state T s.counts s.resultsProcessed s.stopped s.closeCount r hnf
      refine ⟨inv.workerSum, ?_, ?_, ?_⟩
      · dsimp only
        rw [hst', hbk', hstopF]
      · dsimp only
        rw [hst']
        intro h1 hd
        exact inv.doneQueue h1 hd
      · dsimp only
        rw [hst', hcc']
        exact inv.closeOnce
  | drain r rest hdone hb =>
    exact ⟨inv.workerSum, inv.stopEqDone, inv.doneQueue, inv.closeOnce⟩

lemma concInvCount_step {proc : String → ProcessingResult} {T concurrency : Nat}
    {s s' : ConcState} (hProper : ∀ o, isProperResult (proc o) = true)
    (core : ConcInvCore concurrency s) (inv : ConcInvCount T s)
    (hstep : ConcStep proc T s s') : ConcInvCount T s' := by
  cases hstep with
  | workerTake org rest n hq hn =>
    refine ⟨inv.sumEq, ?_, inv.doneSum, inv.bufProper⟩
    dsimp only
    intro h1
    have := inv.conserve h1
    rw [hq] at this
    simp only [List.length_cons] at this ⊢
    omega
  | workerFinish pre post org hb =>
    refine ⟨inv.sumEq, ?_, inv.doneSum, ?_⟩
    · dsimp only
      intro h1
      have := inv.conserve h1
      rw [hb] at this
      simp only [List.length_append, List.length_cons, List.length_singleton,
        List.length_nil] at this ⊢
      omega
    · dsimp only
      intro r hr
      rcases List.mem_append.1 hr with h | h
      · exact inv.bufProper r h
      · have : r = proc org := by simpa using h
        rw [this]
        exact hProper org
  | workerExitStop n hn hs =>
    exact ⟨inv.sumEq, inv.conserve, inv.doneSum, inv.bufProper⟩
  | workerExitEmpty n hn hq =>
    exact ⟨inv.sumEq, inv.conserve, inv.doneSum, inv.bufProper⟩
  | consume r rest hdone hb =>
    have hstopF : s.stopped = false := by rw [core.stopEqDone, hdone]
    have hrp := consumeOne_resultsProcessed T s.counts s.resultsProcessed s.stopped s.closeCount r
    have hrproper : isProperResult r = true := by
      refine inv.bufProper r ?_
      rw [hb]
      exact List.mem_cons_self _ _
    have hcons := inv.conserve hstopF
    rw [hb] at hcons
    simp only [List.length_cons] at hcons
    by_cases hf : isFatalResult r = true
    · have hco := consumeOne_fatal T s.counts s.resultsProcessed s.closeCount r hf
      refine ⟨?_, ?_, ?_, ?_⟩
      · dsimp only
        rw [hstopF, hco]
        intro h1
        cases h1
      · dsimp only
        rw [hstopF, hco]
        intro h1
        cases h1
      · dsimp only
        rw [hstopF, hco]
        intro _
        have hsum := inv.sumEq hstopF
        simp only [Counts.sum] at hsum ⊢
        omega
      · dsimp only
        intro r' hr'
        refine inv.bufProper r' ?_
        rw [hb]
        exact List.mem_cons_of_mem _ hr'
    · have hnf : isFatalResult r = false := by simpa using hf
      obtain ⟨hsum1, hst', hcc', hbk'⟩ :=
        consumeOne_nonfatal T s.counts s.resultsProcessed s.stopped s.closeCount r hrproper hnf
      refine ⟨?_, ?_, ?_, ?_⟩
      · dsimp only
        rw [hst']
        intro h1
        rw [hsum1, hrp, inv.sumEq h1]
      · dsimp only
        rw [hst', hrp]
        intro h1
        omega
      · dsimp only
        rw [hbk']
        intro h1
        cases h1
      · dsimp only
        intro r' hr'
        refine inv.bufProper r' ?_
        rw [hb]
        exact List.mem_cons_of_mem _ hr'
  | drain r rest hdone hb =>
    have hst : s.stopped = true := by rw [core.stopEqDone, hdone]
    refine ⟨?_, ?_, inv.doneSum, ?_⟩
    · dsimp only
      intro h1
      rw [hst] at h1
      cases h1
    · dsimp only
      intro h1
      rw [hst] at h1
      cases h1
    · dsimp only
      intro r' hr'
      refine inv.bufProper r' ?_
      rw [hb]
      exact List.mem_cons_of_mem _ hr'

lemma concInvCore_reachable {proc : String → ProcessingResult}
    {T concurrency : Nat} {orgs : List String} {s : ConcState}
    (h : ConcReachable proc T (initState orgs concurrency) s) :
    ConcInvCore concurrency s := by
  induction h with
  | refl => exact concInvCore_init orgs concurrency
  | tail hab hbc ih => exact concInvCore_step ih hbc

lemma concInv_reachable {proc : String → ProcessingResult}
    {concurrency : Nat} {orgs : List String} {s : ConcState}
    (hProper : ∀ o, isProperResult (proc o) = true)
    (h : ConcReachable proc orgs.length (initState orgs concurrency) s) :
    ConcInvCore concurrency s ∧ ConcInvCount orgs.length s := by
  induction h with
  | refl => exact ⟨concInvCore_init orgs concurrency, concInvCount_init orgs concurrency⟩
  | tail hab hbc ih =>
    exact ⟨concInvCore_step ih.1 hbc, concInvCount_step hProper ih.1 ih.2 hbc⟩

lemma conc_final_sum {proc : String → ProcessingResult}
    {concurrency : Nat} {orgs : List String} {s : ConcState}
    (hProper : ∀ o, isProperResult (proc o) = true) (hconc : 1 ≤ concurrency)
    (hreach : ConcReachable proc orgs.length (initState orgs concurrency) s)
    (hfinal : s.final) : s.counts.sum = orgs.length := by
  obtain ⟨core, cnt⟩ := concInv_reachable hProper hreach
  obtain ⟨hidle, hbusy, hbuf⟩ := hfinal
  cases hst : s.stopped
  · have hsum := cnt.sumEq hst
    have hcons := cnt.conserve hst
    have hws := core.workerSum
    rw [hidle, hbusy] at hws
    simp only [List.length_nil] at hws
    have hdone : 0 < s.doneWorkers := by omega
    have hq := core.doneQueue hst hdone
    rw [hbuf, hbusy, hq] at hcons
    simp only [List.length_nil] at hcons
    omega
  · have hdone : s.consumerDone = true := by rw [← core.stopEqDone, hst]
    exact cnt.doneSum hdone

/-! ## Conservation for the sequential runner -/

lemma seqLoop_sum (proc : String → ProcessingResult) (delay T : Nat)
    (hProper : ∀ o, isProperResult (proc o) = true) :
    ∀ (l : List String) (i : Nat) (c : Counts), i + l.length = T → c.sum = i →
      ((seqLoop proc delay T l i c).1).sum = T := by
  intro l
  induction l with
  | nil =>
    intro i c hlen hsum
    simp only [seqLoop, List.length_nil] at *
    omega
  | cons org rest ih =>
    intro i c hlen hsum
    have hp := hProper org
    simp only [List.length_cons] at hlen
    simp only [seqLoop]
    rcases hr : proc org with ⟨o, su, sk, er⟩
    rw [hr] at hp
    simp only [isProperResult] at hp
    cases su <;> cases sk <;>
      rcases er with _ | (⟨cn, o2⟩ | ⟨fe, o2⟩ | m) <;>
        simp_all <;>
        first
          | (apply ih (i + 1) _ (by omega)
             simp only [Counts.sum] at hsum ⊢
             omega)
          | (simp only [Counts.sum] at hsum ⊢
             omega)

/-! ## Claim theorems -/

/-- C1: for every run of either runner (sequential, and concurrent at any
concurrency the callers can configure, i.e. at least 1) over any target list
and any Target Operation — a function whose every result is a proper Outcome
(Success, Skipped or Failed) — the returned triple satisfies
successCount + skippedCount + errorCount = number of targets, including runs
that end in a fatal abort. -/
theorem conservation_invariant (proc : String → ProcessingResult)
    (orgs : List String) (delay concurrency : Nat)
    (hProper : ∀ o, isProperResult (proc o) = true)
    (hconc : 1 ≤ concurrency) :
    ((seqProcess proc delay orgs).1).sum = orgs.length ∧
    ∀ result : Counts × List String,
      ConcResult proc orgs concurrency result → result.1.sum = orgs.length := by
  constructor
  · unfold seqProcess
    by_cases h : orgs.length = 0
    · simp [h, Counts.sum]
    · rw [if_neg h]
      exact seqLoop_sum proc delay orgs.length hProper orgs 0 ⟨0, 0, 0⟩ (by omega)
        (by simp [Counts.sum])
  · intro result hres
    cases hres with
    | empty h => simp [h, Counts.sum]
    | run s hne hreach hfinal => exact conc_final_sum hProper hconc hreach hfinal

/-- Witness for C1 at a concrete operation and target list. -/
theorem conservation_invariant_witness :
    ((seqProcess (fun o => ⟨o, true, false, none⟩) 0 ["orgA", "orgB"]).1).sum = 2 ∧
    ∀ result : Counts × List String,
      ConcResult (fun o => ⟨o, true, false, none⟩) ["orgA", "orgB"] 1 result →
        result.1.sum = 2 :=
  conservation_invariant (fun o => ⟨o, true, false, none⟩) ["orgA", "orgB"] 0 1
    (fun _ => rfl) (by decide)

/-- C7: within one concurrent run, the stop channel is closed at most once,
however many workers report a fatal error: in every reachable state the
instrumented count of executed `close(cp.stopSignal)` calls is at most 1,
because the close is guarded by the `stopped` flag under the counter mutex. -/
theorem stop_signal_closed_at_most_once (proc : String → ProcessingResult)
    (orgs : List String) (T concurrency : Nat) (s : ConcState)
    (hreach : ConcReachable proc T (initState orgs concurrency) s) :
    s.closeCount ≤ 1 := by
  have core := concInvCore_reachable hreach
  rw [core.closeOnce]
  split <;> omega

/-- Witness for C7 at a concrete reachable state. -/
theorem stop_signal_closed_at_most_once_witness :
    (initState ["orgA"] 1).closeCount ≤ 1 :=
  stop_signal_closed_at_most_once (fun o => ⟨o, true, false, none⟩) ["orgA"] 1 1
    (initState ["orgA"] 1) Relation.ReflTransGen.refl

/-- C8: for an empty target list, both runners return (0, 0, 0), invoke no
Target Operation (empty event trace and invocation history), and return
normally. -/
theorem empty_targets_trivial_result (proc : String → ProcessingResult)
    (delay concurrency : Nat) :
    seqProcess proc delay [] = (⟨0, 0, 0⟩, []) ∧
    ∀ result : Counts × List String,
      ConcResult proc [] concurrency result → result = (⟨0, 0, 0⟩, []) := by
  constructor
  · rfl
  · intro result hres
    cases hres with
    | empty h => rfl
    | run s hne hreach hfinal => exact absurd rfl hne

/-- Witness for C8 at a concrete operation. -/
theorem empty_targets_trivial_result_witness :
    seqProcess (fun o => ⟨o, true, false, none⟩) 5 [] = (⟨0, 0, 0⟩, []) ∧
    ((⟨0, 0, 0⟩, []) : Counts × List String) = (⟨0, 0, 0⟩, []) :=
  ⟨(empty_targets_trivial_result (fun o => ⟨o, true, false, none⟩) 5 3).1,
   (empty_targets_trivial_result (fun o => ⟨o, true, false, none⟩) 5 3).2
     (⟨0, 0, 0⟩, []) (ConcResult.empty rfl)⟩

/-- Concrete business-skip-equivalent result and operation, for witnesses. -/
def cfgExistsResult : ProcessingResult :=
  ⟨"orgX", false, false, some (GoError.configurationExists "config-name" "orgX")⟩

/-- Operation returning the business-skip-equivalent failure on every target. -/
def procCfgExists : String → ProcessingResult := fun _ => cfgExistsResult

/-- C3: in both runners, a Failed outcome carrying a ConfigurationExistsError
is recorded as Skipped and never as Error: the consumer iteration and the
sequential loop iteration both increment skippedCount by one and leave
errorCount net-unchanged, and neither aborts the run. -/
theorem config_exists_reclassified_as_skip
    (T : Nat) (c : Counts) (rp : Nat) (st : Bool) (cc : Nat)
    (r : ProcessingResult) (cn o2 : String)
    (hs : r.success = false) (hk : r.skipped = false)
    (he : r.error = some (GoError.configurationExists cn o2))
    (proc : String → ProcessingResult) (delay ti i : Nat) (org : String)
    (rest : List String) (hproc : proc org = r) :
    consumeOne T c rp st cc r =
      ⟨{ c with skippedCount := c.skippedCount + 1 }, rp + 1, st, cc, false⟩ ∧
    seqLoop proc delay ti (org :: rest) i c =
      ((seqLoop proc delay ti rest (i + 1) { c with skippedCount := c.skippedCount + 1 }).1,
        (if 0 < i ∧ 0 < delay then [SeqEvent.sleep delay] else []) ++ [SeqEvent.invoke org] ++
          (seqLoop proc delay ti rest (i + 1) { c with skippedCount := c.skippedCount + 1 }).2) := by
  obtain ⟨o, su, sk, er⟩ := r
  simp only at hs hk he
  subst hs
  subst hk
  subst he
  constructor
  · simp [consumeOne]
  · simp [seqLoop, hproc]

/-- Witness for C3 at a concrete result and state. -/
theorem config_exists_reclassified_as_skip_witness :
    consumeOne 3 ⟨0, 0, 0⟩ 0 false 0 cfgExistsResult = ⟨⟨0, 1, 0⟩, 1, false, 0, false⟩ ∧
    seqLoop procCfgExists 0 1 ["orgX"] 0 ⟨0, 0, 0⟩ =
      ((seqLoop procCfgExists 0 1 [] 1 ⟨0, 1, 0⟩).1,
        [SeqEvent.invoke "orgX"] ++ (seqLoop procCfgExists 0 1 [] 1 ⟨0, 1, 0⟩).2) := by
  simpa using config_exists_reclassified_as_skip 3 ⟨0, 0, 0⟩ 0 false 0 cfgExistsResult
    "config-name" "orgX" rfl rfl rfl procCfgExists 0 1 0 "orgX" [] rfl

/-- C9 counterexample: the claim says any delay outside 1–600 yields a
validation error, but ValidateDelay checks `delay < 0`, so the out-of-range
value 0 is accepted (it is the unset-flag default). -/
theorem validate_delay_accepts_zero :
    ValidateDelay 0 = none ∧ ¬ (1 ≤ (0 : Int) ∧ (0 : Int) ≤ 600) := by
  constructor
  · decide
  · decide

/-- C9 amended: ValidateConcurrency accepts exactly the integers 1–20;
ValidateDelay accepts exactly the integers 0–600, i.e. the stated 1–600 range
plus the value 0 that an unset delay flag defaults to. -/
theorem validator_ranges (c d : Int) :
    (ValidateConcurrency c = none ↔ 1 ≤ c ∧ c ≤ 20) ∧
    (ValidateDelay d = none ↔ 0 ≤ d ∧ d ≤ 600) := by
  constructor
  · unfold ValidateConcurrency
    split <;> rename_i h <;> simp <;> omega
  · unfold ValidateDelay
    split <;> rename_i h <;> simp <;> omega

/-- Witness for C9 at concrete flag values. -/
theorem validator_ranges_witness :
    ValidateConcurrency 5 = none ∧ ValidateDelay 0 = none :=
  ⟨(validator_ranges 5 0).1.mpr (by decide), (validator_ranges 5 0).2.mpr (by decide)⟩

/-- C10: ValidateConcurrencyAndDelay returns an error exactly when concurrency
exceeds 1 and delay is positive; in particular a positive delay together with
the default concurrency of 1 is accepted. -/
theorem concurrency_delay_mutual_exclusion (c d : Int) :
    (ValidateConcurrencyAndDelay c d ≠ none ↔ 1 < c ∧ 0 < d) ∧
    ValidateConcurrencyAndDelay 1 d = none := by
  constructor
  · unfold ValidateConcurrencyAndDelay
    split <;> rename_i h <;> simp <;> omega
  · unfold ValidateConcurrencyAndDelay
    rw [if_neg]
    omega

/-- Witness for C10 at concrete flag values. -/
theorem concurrency_delay_mutual_exclusion_witness :
    ValidateConcurrencyAndDelay 2 30 ≠ none ∧ ValidateConcurrencyAndDelay 1 30 = none :=
  ⟨(concurrency_delay_mutual_exclusion 2 30).1.mpr (by decide),
   (concurrency_delay_mutual_exclusion 1 30).2⟩

/-! ## Traces of the sequential runner -/

/-- A non-fatal head target makes the sequential loop recurse on the rest with
some updated counter that depends neither on the total count nor on the tail. -/
lemma seqLoop_cons_nonfatal (proc : String → ProcessingResult) (delay : Nat)
    (org : String) (i : Nat) (c : Counts)
    (hx : isFatalResult (proc org) = false) :
    ∃ c' : Counts, ∀ (T : Nat) (rest : List String),
      seqLoop proc delay T (org :: rest) i c =
        ((seqLoop proc delay T rest (i + 1) c').1,
          ((if 0 < i ∧ 0 < delay then [SeqEvent.sleep delay] else []) ++
            [SeqEvent.invoke org]) ++ (seqLoop proc delay T rest (i + 1) c').2) := by
  rcases hr : proc org with ⟨o, su, sk, er⟩
  rw [hr] at hx
  cases su with
  | true =>
    exact ⟨{ c with successCount := c.successCount + 1 }, fun T rest => by simp [seqLoop, hr]⟩
  | false =>
    cases sk with
    | true =>
      exact ⟨{ c with skippedCount := c.skippedCount + 1 }, fun T rest => by simp [seqLoop, hr]⟩
    | false =>
      rcases er with _ | (⟨cn, o2⟩ | ⟨fe, o2⟩ | m)
      · exact ⟨c, fun T rest => by simp [seqLoop, hr]⟩
      · exact ⟨⟨c.successCount, c.skippedCount + 1, c.errorCount + 1 - 1⟩,
          fun T rest => by simp [seqLoop, hr]⟩
      · simp [isFatalResult] at hx
      · exact ⟨⟨c.successCount, c.skippedCount, c.errorCount + 1⟩,
          fun T rest => by simp [seqLoop, hr]⟩

/-- A fatal head target makes the sequential loop return at once: errorCount
is incremented, the not-yet-attempted count is added to skippedCount, and the
trace ends after this target's invocation. -/
lemma seqLoop_cons_fatal (proc : String → ProcessingResult) (delay : Nat)
    (t : String) (ht : isFatalResult (proc t) = true) (T : Nat)
    (rest : List String) (i : Nat) (c : Counts) :
    seqLoop proc delay T (t :: rest) i c =
      (⟨c.successCount, c.skippedCount + (T - (i + 1)), c.errorCount + 1⟩,
        (if 0 < i ∧ 0 < delay then [SeqEvent.sleep delay] else []) ++
          [SeqEvent.invoke t]) := by
  rcases hr : proc t with ⟨o, su, sk, er⟩
  rw [hr] at ht
  cases su <;> cases sk <;>
    rcases er with _ | (⟨cn, o2⟩ | ⟨fe, o2⟩ | m) <;>
      simp_all [isFatalResult, seqLoop]

/-- Everything after the first fatal target is irrelevant to a sequential run. -/
lemma seqLoop_cut_at_fatal (proc : String → ProcessingResult) (delay T : Nat)
    (t : String) (post : List String) (ht : isFatalResult (proc t) = true) :
    ∀ (pre : List String) (i : Nat) (c : Counts),
      (∀ o ∈ pre, isFatalResult (proc o) = false) →
      seqLoop proc delay T (pre ++ t :: post) i c = seqLoop proc delay T (pre ++ [t]) i c := by
  intro pre
  induction pre with
  | nil =>
    intro i c _
    rw [List.nil_append, List.nil_append, seqLoop_cons_fatal proc delay t ht T post i c,
      seqLoop_cons_fatal proc delay t ht T [] i c]
  | cons x pre ih =>
    intro i c hpre
    have hx : isFatalResult (proc x) = false := hpre x (List.mem_cons_self _ _)
    have hpre' : ∀ o ∈ pre, isFatalResult (proc o) = false :=
      fun o ho => hpre o (List.mem_cons_of_mem _ ho)
    obtain ⟨c', hc'⟩ := seqLoop_cons_nonfatal proc delay x i c hx
    rw [List.cons_append, List.cons_append, hc' T (pre ++ t :: post), hc' T (pre ++ [t]),
      ih (i + 1) c' hpre']

/-- A sequential run over a list ending in its first fatal target produces the
same counters as the run whose total is exactly the list's extent, except that
skippedCount additionally receives the targets beyond that extent. -/
lemma seqLoop_fatal_totals (proc : String → ProcessingResult) (delay T : Nat)
    (t : String) (ht : isFatalResult (proc t) = true) :
    ∀ (pre : List String) (i : Nat) (c : Counts),
      (∀ o ∈ pre, isFatalResult (proc o) = false) →
      (seqLoop proc delay T (pre ++ [t]) i c).1.successCount =
        (seqLoop proc delay (i + pre.length + 1) (pre ++ [t]) i c).1.successCount ∧
      (seqLoop proc delay T (pre ++ [t]) i c).1.errorCount =
        (seqLoop proc delay (i + pre.length + 1) (pre ++ [t]) i c).1.errorCount ∧
      (seqLoop proc delay T (pre ++ [t]) i c).1.skippedCount =
        (seqLoop proc delay (i + pre.length + 1) (pre ++ [t]) i c).1.skippedCount +
          (T - (i + pre.length + 1)) ∧
      (seqLoop proc delay T (pre ++ [t]) i c).2 =
        (seqLoop proc delay (i + pre.length + 1) (pre ++ [t]) i c).2 := by
  intro pre
  induction pre with
  | nil =>
    intro i c _
    rw [List.nil_append, seqLoop_cons_fatal proc delay t ht T [] i c,
      seqLoop_cons_fatal proc delay t ht (i + [].length + 1) [] i c]
    refine ⟨rfl, rfl, ?_, rfl⟩
    simp only [List.length_nil]
    omega
  | cons x pre ih =>
    intro i c hpre
    have hx : isFatalResult (proc x) = false := hpre x (List.mem_cons_self _ _)
    have hpre' : ∀ o ∈ pre, isFatalResult (proc o) = false :=
      fun o ho => hpre o (List.mem_cons_of_mem _ ho)
    obtain ⟨c', hc'⟩ := seqLoop_cons_nonfatal proc delay x i c hx
    have harith : i + (x :: pre).length + 1 = i + 1 + pre.length + 1 := by
      simp only [List.length_cons]
      omega
    rw [List.cons_append, harith, hc' T (pre ++ [t]), hc' (i + 1 + pre.length + 1) (pre ++ [t])]
    obtain ⟨h1, h2, h3, h4⟩ := ih (i + 1) c' hpre'
    exact ⟨h1, h2, h3, by rw [h4]⟩

/-- In a sequential run over a list whose non-final targets are all non-fatal,
every target is invoked, in input order. -/
lemma seqLoop_invoked_end (proc : String → ProcessingResult) (delay T : Nat)
    (t : String) :
    ∀ (pre : List String) (i : Nat) (c : Counts),
      (∀ o ∈ pre, isFatalResult (proc o) = false) →
      invokedOf (seqLoop proc delay T (pre ++ [t]) i c).2 = pre ++ [t] := by
  intro pre
  induction pre with
  | nil =>
    intro i c _
    by_cases hft : isFatalResult (proc t) = true
    · rw [List.nil_append, seqLoop_cons_fatal proc delay t hft T [] i c]
      by_cases hc : 0 < i ∧ 0 < delay <;> simp [invokedOf, hc]
    · have hft' : isFatalResult (proc t) = false := by simpa using hft
      obtain ⟨c', hc'⟩ := seqLoop_cons_nonfatal proc delay t i c hft'
      rw [List.nil_append, hc' T []]
      by_cases hc : 0 < i ∧ 0 < delay <;> simp [invokedOf, hc, seqLoop]
  | cons x pre ih =>
    intro i c hpre
    have hx : isFatalResult (proc x) = false := hpre x (List.mem_cons_self _ _)
    have hpre' : ∀ o ∈ pre, isFatalResult (proc o) = false :=
      fun o ho => hpre o (List.mem_cons_of_mem _ ho)
    obtain ⟨c', hc'⟩ := seqLoop_cons_nonfatal proc delay x i c hx
    rw [List.cons_append, hc' T (pre ++ [t])]
    have hih := ih (i + 1) c' hpre'
    by_cases hc : 0 < i ∧ 0 < delay <;>
      simp [invokedOf, hc] <;>
      simpa [invokedOf] using hih

/-- A fatal (DependabotUnavailableError) result for a target. -/
def fatalResult (org : String) : ProcessingResult :=
  ⟨org, false, false, some (GoError.dependabotUnavailable "alerts" org)⟩

/-- A successful result for a target. -/
def successResult (org : String) : ProcessingResult :=
  ⟨org, true, false, none⟩

/-- Operation that fails fatally on target "A" and succeeds elsewhere. -/
def procFatalA : String → ProcessingResult :=
  fun org => if org = "A" then fatalResult org else successResult org

/-- C4: when the sequential runner meets its first fatal outcome at position
`pre.length` of the input list, it returns immediately with the partial
aggregate of the run truncated at that target — the count of targets not yet
attempted (`post.length`, i.e. `len − (i+1)`) is added to skippedCount and
not to errorCount or successCount, the event trace ends there, and no later
target's operation is invoked. -/
theorem sequential_fatal_abort (proc : String → ProcessingResult) (delay : Nat)
    (pre post : List String) (t : String)
    (hpre : ∀ o ∈ pre, isFatalResult (proc o) = false)
    (ht : isFatalResult (proc t) = true) :
    (seqProcess proc delay (pre ++ t :: post)).1.successCount =
      (seqProcess proc delay (pre ++ [t])).1.successCount ∧
    (seqProcess proc delay (pre ++ t :: post)).1.errorCount =
      (seqProcess proc delay (pre ++ [t])).1.errorCount ∧
    (seqProcess proc delay (pre ++ t :: post)).1.skippedCount =
      (seqProcess proc delay (pre ++ [t])).1.skippedCount + post.length ∧
    (seqProcess proc delay (pre ++ t :: post)).2 = (seqProcess proc delay (pre ++ [t])).2 ∧
    invokedOf (seqProcess proc delay (pre ++ t :: post)).2 = pre ++ [t] := by
  have hne1 : ¬ (pre ++ t :: post).length = 0 := by simp
  have hne2 : ¬ (pre ++ [t]).length = 0 := by simp
  unfold seqProcess
  rw [if_neg hne1, if_neg hne2]
  rw [seqLoop_cut_at_fatal proc delay (pre ++ t :: post).length t post ht pre 0 ⟨0, 0, 0⟩ hpre]
  have hL : (pre ++ [t]).length = 0 + pre.length + 1 := by simp
  rw [hL]
  obtain ⟨h1, h2, h3, h4⟩ :=
    seqLoop_fatal_totals proc delay (pre ++ t :: post).length t ht pre 0 ⟨0, 0, 0⟩ hpre
  have hpost : (pre ++ t :: post).length - (0 + pre.length + 1) = post.length := by
    simp only [List.length_append, List.length_cons]
    omega
  rw [hpost] at h3
  exact ⟨h1, h2, h3, h4,
    seqLoop_invoked_end proc delay (pre ++ t :: post).length t pre 0 ⟨0, 0, 0⟩ hpre⟩

/-- Witness for C4 at a concrete list with the fatal target in position 1. -/
theorem sequential_fatal_abort_witness :
    (seqProcess procFatalA 0 (["B"] ++ "A" :: ["C", "D"])).1.successCount =
      (seqProcess procFatalA 0 (["B"] ++ ["A"])).1.successCount ∧
    (seqProcess procFatalA 0 (["B"] ++ "A" :: ["C", "D"])).1.errorCount =
      (seqProcess procFatalA 0 (["B"] ++ ["A"])).1.errorCount ∧
    (seqProcess procFatalA 0 (["B"] ++ "A" :: ["C", "D"])).1.skippedCount =
      (seqProcess procFatalA 0 (["B"] ++ ["A"])).1.skippedCount + 2 ∧
    (seqProcess procFatalA 0 (["B"] ++ "A" :: ["C", "D"])).2 =
      (seqProcess procFatalA 0 (["B"] ++ ["A"])).2 ∧
    invokedOf (seqProcess procFatalA 0 (["B"] ++ "A" :: ["C", "D"])).2 = ["B"] ++ ["A"] :=
  sequential_fatal_abort procFatalA 0 ["B"] ["C", "D"] "A" (by decide) (by decide)

/-- Invocations of the sequential loop are always an order-preserving prefix
of the remaining input. -/
lemma seqLoop_invoked_prefix (proc : String → ProcessingResult) (delay T : Nat) :
    ∀ (l : List String) (i : Nat) (c : Counts),
      ∃ m, invokedOf (seqLoop proc delay T l i c).2 = l.take m := by
  intro l
  induction l with
  | nil =>
    intro i c
    exact ⟨0, by simp [seqLoop, invokedOf]⟩
  | cons x rest ih =>
    intro i c
    by_cases hft : isFatalResult (proc x) = true
    · refine ⟨1, ?_⟩
      rw [seqLoop_cons_fatal proc delay x hft T rest i c]
      by_cases hc : 0 < i ∧ 0 < delay <;> simp [invokedOf, hc]
    · have hft' : isFatalResult (proc x) = false := by simpa using hft
      obtain ⟨c', hc'⟩ := seqLoop_cons_nonfatal proc delay x i c hft'
      obtain ⟨m, hm⟩ := ih (i + 1) c'
      refine ⟨m + 1, ?_⟩
      rw [hc' T rest]
      by_cases hc : 0 < i ∧ 0 < delay <;>
        simp [invokedOf, hc] <;> simpa [invokedOf] using hm

/-- With no fatal outcome, the sequential loop invokes every remaining target
in order. -/
lemma seqLoop_invoked_all (proc : String → ProcessingResult) (delay T : Nat) :
    ∀ (l : List String) (i : Nat) (c : Counts),
      (∀ o ∈ l, isFatalResult (proc o) = false) →
      invokedOf (seqLoop proc delay T l i c).2 = l := by
  intro l
  induction l with
  | nil =>
    intro i c _
    simp [seqLoop, invokedOf]
  | cons x rest ih =>
    intro i c h
    obtain ⟨c', hc'⟩ :=
      seqLoop_cons_nonfatal proc delay x i c (h x (List.mem_cons_self _ _))
    rw [hc' T rest]
    have hih := ih (i + 1) c' (fun o ho => h o (List.mem_cons_of_mem _ ho))
    by_cases hc : 0 < i ∧ 0 < delay <;>
      simp [invokedOf, hc] <;> simpa [invokedOf] using hih

/-- With delay 0 the sequential loop's trace is exactly the invocations, with
no sleeps anywhere. -/
lemma seqLoop_events_nodelay (proc : String → ProcessingResult) (T : Nat) :
    ∀ (l : List String) (i : Nat) (c : Counts),
      (∀ o ∈ l, isFatalResult (proc o) = false) →
      (seqLoop proc 0 T l i c).2 = l.map SeqEvent.invoke := by
  intro l
  induction l with
  | nil =>
    intro i c _
    simp [seqLoop]
  | cons x rest ih =>
    intro i c h
    obtain ⟨c', hc'⟩ :=
      seqLoop_cons_nonfatal proc 0 x i c (h x (List.mem_cons_self _ _))
    rw [hc' T rest]
    rw [ih (i + 1) c' (fun o ho => h o (List.mem_cons_of_mem _ ho))]
    simp

/-- With a positive delay, from the second target on (index ≥ 1), every
remaining target is preceded by exactly one sleep of that delay. -/
lemma seqLoop_events_delay (proc : String → ProcessingResult) (delay T : Nat)
    (hd : 0 < delay) :
    ∀ (l : List String) (i : Nat) (c : Counts),
      (∀ o ∈ l, isFatalResult (proc o) = false) →
      (seqLoop proc delay T l (i + 1) c).2 =
        l.flatMap fun o => [SeqEvent.sleep delay, SeqEvent.invoke o] := by
  intro l
  induction l with
  | nil =>
    intro i c _
    simp [seqLoop]
  | cons x rest ih =>
    intro i c h
    obtain ⟨c', hc'⟩ :=
      seqLoop_cons_nonfatal proc delay x (i + 1) c (h x (List.mem_cons_self _ _))
    rw [hc' T rest]
    rw [ih (i + 1) c' (fun o ho => h o (List.mem_cons_of_mem _ ho))]
    simp [hd]

/-- C6: the sequential runner invokes the targets in exactly the
caller-supplied input order — in general the invocation history is a prefix of
the input, and absent fatal outcomes it is the whole input — and when a
non-zero delay is configured the trace sleeps exactly once before every target
except the first, never before the first (with delay 0 there are no sleeps). -/
theorem sequential_order_and_delay (proc : String → ProcessingResult)
    (delay : Nat) (orgs : List String) :
    (∃ m, invokedOf (seqProcess proc delay orgs).2 = orgs.take m) ∧
    ((∀ o ∈ orgs, isFatalResult (proc o) = false) →
      invokedOf (seqProcess proc delay orgs).2 = orgs ∧
      (delay = 0 → (seqProcess proc delay orgs).2 = orgs.map SeqEvent.invoke) ∧
      (0 < delay → (seqProcess proc delay orgs).2 =
        (orgs.take 1).map SeqEvent.invoke ++
          ((orgs.drop 1).flatMap fun o => [SeqEvent.sleep delay, SeqEvent.invoke o]))) := by
  constructor
  · unfold seqProcess
    by_cases h : orgs.length = 0
    · rw [if_pos h]
      exact ⟨0, by simp [invokedOf]⟩
    · rw [if_neg h]
      exact seqLoop_invoked_prefix proc delay orgs.length orgs 0 ⟨0, 0, 0⟩
  · intro hnf
    refine ⟨?_, ?_, ?_⟩
    · unfold seqProcess
      by_cases h : orgs.length = 0
      · rw [if_pos h]
        rw [List.length_eq_zero] at h
        simp [h, invokedOf]
      · rw [if_neg h]
        exact seqLoop_invoked_all proc delay orgs.length orgs 0 ⟨0, 0, 0⟩ hnf
    · intro hd0
      subst hd0
      unfold seqProcess
      by_cases h : orgs.length = 0
      · rw [if_pos h]
        rw [List.length_eq_zero] at h
        simp [h]
      · rw [if_neg h]
        exact seqLoop_events_nodelay proc orgs.length orgs 0 ⟨0, 0, 0⟩ hnf
    · intro hdpos
      cases orgs with
      | nil => rfl
      | cons x rest =>
        unfold seqProcess
        rw [if_neg (by simp)]
        obtain ⟨c', hc'⟩ :=
          seqLoop_cons_nonfatal proc delay x 0 ⟨0, 0, 0⟩ (hnf x (List.mem_cons_self _ _))
        rw [hc' (x :: rest).length rest]
        rw [seqLoop_events_delay proc delay (x :: rest).length hdpos rest 0 c'
          (fun o ho => hnf o (List.mem_cons_of_mem _ ho))]
        simp

/-- Witness for C6 at a concrete operation, list and delay. -/
theorem sequential_order_and_delay_witness :
    (∃ m, invokedOf (seqProcess successResult 7 ["orgA", "orgB", "orgC"]).2 =
      ["orgA", "orgB", "orgC"].take m) ∧
    (invokedOf (seqProcess successResult 7 ["orgA", "orgB", "orgC"]).2 =
      ["orgA", "orgB", "orgC"] ∧
    (7 = 0 → (seqProcess successResult 7 ["orgA", "orgB", "orgC"]).2 =
      ["orgA", "orgB", "orgC"].map SeqEvent.invoke) ∧
    (0 < 7 → (seqProcess successResult 7 ["orgA", "orgB", "orgC"]).2 =
      (["orgA", "orgB", "orgC"].take 1).map SeqEvent.invoke ++
        ((["orgA", "orgB", "orgC"].drop 1).flatMap fun o =>
          [SeqEvent.sleep 7, SeqEvent.invoke o]))) :=
  ⟨(sequential_order_and_delay successResult 7 ["orgA", "orgB", "orgC"]).1,
   (sequential_order_and_delay successResult 7 ["orgA", "orgB", "orgC"]).2 (by decide)⟩

/-! ## Concrete concurrent traces for the fatal-abort scenarios -/

/-- Two-target run, concurrency 1: worker has taken "A". -/
def abState : ConcState :=
  { queue := ["B"], idleWorkers := 0, busyOrgs := ["A"], doneWorkers := 0,
    resultBuf := [], stopped := false, counts := ⟨0, 0, 0⟩, resultsProcessed := 0,
    consumerDone := false, closeCount := 0, invoked := ["A"], consumed := [] }

/-- ... the worker has delivered "A"'s fatal result. -/
def abSent : ConcState :=
  { abState with idleWorkers := 1, busyOrgs := [], resultBuf := [fatalResult "A"] }

/-- ... the consumer has consumed the fatal result and aborted. -/
def abAborted : ConcState :=
  { abSent with
    resultBuf := []
    stopped := true
    counts := ⟨0, 1, 1⟩
    resultsProcessed := 1
    consumerDone := true
    closeCount := 1
    consumed := [fatalResult "A"] }

/-- ... and the worker's select nevertheless pulled "B" from the queue. -/
def abTookNew : ConcState :=
  { abAborted with
    queue := []
    idleWorkers := 0
    busyOrgs := ["B"]
    invoked := ["A", "B"] }

/-- C2 counterexample: a reachable state of the concurrent runner in which the
fatal outcome has already been observed by the consumer (stop signal closed,
the fatal result consumed), yet a worker still begins processing the new
target "B" afterwards — Go's select chooses among ready cases
nondeterministically and does not prioritise the stop signal. -/
theorem fatal_stop_new_work_cex :
    ConcReachable procFatalA 2 (initState ["A", "B"] 1) abAborted ∧
    abAborted.stopped = true ∧
    abAborted.consumed = [fatalResult "A"] ∧
    ConcStep procFatalA 2 abAborted abTookNew ∧
    abTookNew.invoked = abAborted.invoked ++ ["B"] := by
  refine ⟨?_, rfl, rfl, ?_, rfl⟩
  · exact Relation.ReflTransGen.head (ConcStep.workerTake _ "A" ["B"] 0 rfl rfl)
      (Relation.ReflTransGen.head (ConcStep.workerFinish _ [] [] "A" rfl)
        (Relation.ReflTransGen.head (ConcStep.consume _ (fatalResult "A") [] rfl rfl)
          Relation.ReflTransGen.refl))
  · exact ConcStep.workerTake _ "B" [] 0 rfl rfl

/-- C2 amended: once the consumer has observed a fatal outcome and left its
loop, no step of the system ever changes the counters or the consumed-results
history again — results still in flight are drained, already accounted for by
the remaining-count added to skippedCount at abort time; a worker may still
begin a new target after the stop signal (select does not prioritise it), but
its outcome never reaches the counters. -/
theorem fatal_abort_frozen_counts (proc : String → ProcessingResult) (T : Nat)
    (s s' : ConcState) (hdone : s.consumerDone = true)
    (hstep : ConcStep proc T s s') :
    s'.counts = s.counts ∧ s'.consumed = s.consumed ∧ s'.consumerDone = true := by
  cases hstep with
  | workerTake org rest n hq hn => exact ⟨rfl, rfl, hdone⟩
  | workerFinish pre post org hb => exact ⟨rfl, rfl, hdone⟩
  | workerExitStop n hn hs => exact ⟨rfl, rfl, hdone⟩
  | workerExitEmpty n hn hq => exact ⟨rfl, rfl, hdone⟩
  | consume r rest hd hb => simp [hdone] at hd
  | drain r rest hd hb => exact ⟨rfl, rfl, hdone⟩

/-- Post-abort state with one in-flight result waiting to be drained. -/
def drainDemoState : ConcState :=
  { queue := [], idleWorkers := 0, busyOrgs := [], doneWorkers := 1,
    resultBuf := [successResult "B"], stopped := true, counts := ⟨0, 1, 1⟩,
    resultsProcessed := 1, consumerDone := true, closeCount := 1,
    invoked := ["A", "B"], consumed := [fatalResult "A"] }

/-- The same state after the drain goroutine discarded that result. -/
def drainDemoNext : ConcState := { drainDemoState with resultBuf := [] }

/-- Witness for C2's amended statement at a concrete drain step. -/
theorem fatal_abort_frozen_counts_witness :
    drainDemoNext.counts = drainDemoState.counts ∧
    drainDemoNext.consumed = drainDemoState.consumed ∧
    drainDemoNext.consumerDone = true :=
  fatal_abort_frozen_counts successResult 2 drainDemoState drainDemoNext rfl
    (ConcStep.drain drainDemoState (successResult "B") [] rfl rfl)

/-- Four-target run, concurrency 2: a worker has taken "A". -/
def scnTake : ConcState :=
  { queue := ["B", "C", "D"], idleWorkers := 1, busyOrgs := ["A"], doneWorkers := 0,
    resultBuf := [], stopped := false, counts := ⟨0, 0, 0⟩, resultsProcessed := 0,
    consumerDone := false, closeCount := 0, invoked := ["A"], consumed := [] }

/-- ... "A"'s fatal result has been delivered. -/
def scnSent : ConcState :=
  { scnTake with idleWorkers := 2, busyOrgs := [], resultBuf := [fatalResult "A"] }

/-- ... the consumer consumed it and aborted: 3 remaining targets skipped,
the fatal target itself counted as an error. -/
def scnAborted : ConcState :=
  { scnSent with
    resultBuf := []
    stopped := true
    counts := ⟨0, 3, 1⟩
    resultsProcessed := 1
    consumerDone := true
    closeCount := 1
    consumed := [fatalResult "A"] }

/-- ... the first worker observed the stop signal and exited. -/
def scnExit1 : ConcState := { scnAborted with idleWorkers := 1, doneWorkers := 1 }

/-- ... both workers exited: the run is over with counts (0, 3, 1). -/
def scnFinal : ConcState := { scnExit1 with idleWorkers := 0, doneWorkers := 2 }

lemma scn_reach_aborted :
    ConcReachable procFatalA 4 (initState ["A", "B", "C", "D"] 2) scnAborted :=
  Relation.ReflTransGen.head (ConcStep.workerTake _ "A" ["B", "C", "D"] 1 rfl rfl)
    (Relation.ReflTransGen.head (ConcStep.workerFinish _ [] [] "A" rfl)
      (Relation.ReflTransGen.head (ConcStep.consume _ (fatalResult "A") [] rfl rfl)
        Relation.ReflTransGen.refl))

lemma scn_reach_final :
    ConcReachable procFatalA 4 (initState ["A", "B", "C", "D"] 2) scnFinal :=
  Relation.ReflTransGen.tail
    (Relation.ReflTransGen.tail scn_reach_aborted (ConcStep.workerExitStop _ 1 rfl rfl))
    (ConcStep.workerExitStop _ 0 rfl rfl)

/-- C5 counterexample: a run of the scenario (targets [A, B, C, D],
concurrency 2, A's fatal result consumed before any other target was even
dispatched — the invocation history is just ["A"], so B was not in flight)
whose result is (0, 3, 1) and not the (0, 4, 0) the claim predicts for the
B-not-in-flight case: the fatal target itself is always counted as an error. -/
theorem fatal_scenario_counts_cex :
    ConcResult procFatalA ["A", "B", "C", "D"] 2 (⟨0, 3, 1⟩, ["A"]) ∧
    (⟨0, 3, 1⟩ : Counts) ≠ ⟨0, 4, 0⟩ := by
  constructor
  · exact ConcResult.run scnFinal (by decide) scn_reach_final ⟨rfl, rfl, rfl⟩
  · decide

/-- History invariant of the [A, B, C, D]/concurrency-2 scenario: while
nothing has been consumed the counters are untouched, and as soon as the
first consumed result is "A"'s fatal one the counters are (0, 3, 1) and the
consumer has left its loop, never to change them again. -/
lemma procFatalA_first_consumed (s : ConcState)
    (hreach : ConcReachable procFatalA 4 (initState ["A", "B", "C", "D"] 2) s) :
    (s.consumed = [] → s.counts = ⟨0, 0, 0⟩ ∧ s.resultsProcessed = 0 ∧
      s.stopped = false ∧ s.consumerDone = false) ∧
    (∀ tl, s.consumed = fatalResult "A" :: tl →
      s.counts = ⟨0, 3, 1⟩ ∧ s.consumerDone = true) := by
  induction hreach with
  | refl =>
    constructor
    · intro _
      exact ⟨rfl, rfl, rfl, rfl⟩
    · intro tl h
      simp [initState] at h
  | tail hab hstep ih =>
    rename_i b c
    cases hstep with
    | workerTake org rest n hq hn => exact ih
    | workerFinish pre post org hb => exact ih
    | workerExitStop n hn hs => exact ih
    | workerExitEmpty n hn hq => exact ih
    | drain r rest hd hb => exact ih
    | consume r rest hd hb =>
      constructor
      · intro h
        exact absurd h (by simp)
      · intro tl h
        cases hbc : b.consumed with
        | nil =>
          rw [hbc] at h
          simp only [List.nil_append] at h
          injection h with h1 h2
          obtain ⟨hc0, hrp0, hst0, _⟩ := ih.1 hbc
          constructor
          · dsimp only
            rw [hc0, hrp0, hst0, h1]
            rfl
          · dsimp only
            rw [hst0, h1]
            rfl
        | cons c0 tl0 =>
          rw [hbc] at h
          rw [List.cons_append] at h
          injection h with h1 h2
          have hdn : b.consumerDone = true := (ih.2 tl0 (by rw [hbc, h1])).2
          rw [hd] at hdn
          simp at hdn

/-- C5 amended: in the scenario (targets [A, B, C, D], concurrency 2, "A"'s
fatal outcome the first result consumed), the concurrent runner's counts are
always exactly (0, 3, 1) — whether or not B was already in flight when the
signal fired, since a late result is drained and was pre-counted as skipped —
and in particular the three counts sum to 4. -/
theorem fatal_scenario_counts (s : ConcState)
    (hreach : ConcReachable procFatalA 4 (initState ["A", "B", "C", "D"] 2) s)
    (hfirst : s.consumed.head? = some (fatalResult "A")) :
    s.counts = ⟨0, 3, 1⟩ ∧ s.counts.sum = 4 := by
  obtain ⟨-, h2⟩ := procFatalA_first_consumed s hreach
  cases hcons : s.consumed with
  | nil =>
    rw [hcons] at hfirst
    simp at hfirst
  | cons c0 tl =>
    rw [hcons] at hfirst
    simp only [List.head?_cons, Option.some.injEq] at hfirst
    obtain ⟨hc, -⟩ := h2 tl (by rw [hcons, hfirst])
    refine ⟨hc, ?_⟩
    rw [hc]
    decide

/-- Witness for C5's amended statement at the concrete aborted state. -/
theorem fatal_scenario_counts_witness :
    scnAborted.counts = ⟨0, 3, 1⟩ ∧ scnAborted.counts.sum = 4 :=
  fatal_scenario_counts scnAborted scn_reach_aborted rfl

end SecurityConfig
